import Mathlib

/-!
# Verification of the openclaw-vscode core

A shallow embedding, in Lean 4, of the parts of the `openclaw-vscode`
extension that the specification's testable properties talk about:

* the command registry / dispatcher (`src/commands/registry.ts`,
  `dispatchCommand`),
* the activity audit store (`ActivityStore` in `activity-store.ts`),
* the gateway client (`gateway-client.ts`, class `GatewayClient`): the
  inbound-invocation routing (`coerceInvokePayload`, `handleInvoke`,
  `sendInvokeResult`), the reconnect backoff (`scheduleReconnect` and the
  reset in `sendConnect`'s success handler), and the handshake
  idempotence guard (`queueConnect`/`sendConnect`, `connectSent` flag),
* the security guard (`resolveWorkspacePath`, `isCommandAllowed` in
  `security.ts`),
* the terminal runner (`terminalRun` in `commands/terminal.ts`), modelled
  as a state machine over subprocess event traces,
* the file editor (`fileEdit` in `commands/file.ts`).

JavaScript strings are modelled as `String` or as `List Char` (for the
path-manipulation functions, where prefix reasoning happens at the
character level; `String.startsWith p q` corresponds to
`q.data <+: p.data`).  JSON values crossing the handler boundary are
modelled by the inductive type `JVal`.
-/

/-- A JSON-like value, standing for the untyped payloads that cross the
command-handler boundary (`unknown` in the TypeScript source). -/
inductive JVal where
  | null : JVal
  | bool (b : Bool) : JVal
  | num (n : Int) : JVal
  | str (s : String) : JVal
  | emptyObj : JVal
  deriving DecidableEq, Repr

/-! ## Activity store (`activity-store.ts`, class `ActivityStore`)

The display-only fields `category` and `intent` (computed by
`getCategory` / `describeIntent`) are omitted; no claim mentions them.
Timestamps (`Date.now()`) are passed in explicitly as `now : Nat`. -/

inductive ActStatus where
  | running : ActStatus
  | ok : ActStatus
  | error : ActStatus
  deriving DecidableEq, Repr

structure Activity where
  id : Nat
  command : String
  params : JVal
  status : ActStatus
  startedAt : Nat
  finishedAt : Option Nat := none
  durationMs : Option Nat := none
  payload : Option JVal := none
  errMsg : Option String := none
  deriving DecidableEq, Repr

structure ActivityStore where
  activities : List Activity
  nextId : Nat
  deriving DecidableEq, Repr

/-- `maxEntries` field of the `ActivityStore` class. -/
def maxEntries : Nat := 200

/-- `ActivityStore.start`: assign `id = nextId++`, unshift the new
`running` record at the front, then truncate the list to `maxEntries`
(`this.activities.length = this.maxEntries`). -/
def ActivityStore.start (s : ActivityStore) (command : String) (params : JVal)
    (now : Nat) : Nat × ActivityStore :=
  let id := s.nextId
  let a : Activity :=
    { id := id, command := command, params := params,
      status := ActStatus.running, startedAt := now }
  (id, { activities := (a :: s.activities).take maxEntries, nextId := s.nextId + 1 })

/-- Replace the first element satisfying `p` by its image under `f`
(models `this.activities.find(...)` followed by in-place mutation). -/
def updateFirst (p : α → Bool) (f : α → α) : List α → List α
  | [] => []
  | x :: xs => if p x then f x :: xs else x :: updateFirst p f xs

/-- The in-place mutation `ActivityStore.finish` performs on the found
record: set the status, the finish timestamp and the duration, and
conditionally the payload (`if (ok)`) and the error (`if (error)`). -/
def finishUpdate (ok : Bool) (result : Option JVal) (err : Option String)
    (now : Nat) (a : Activity) : Activity :=
  { a with
    status := if ok then ActStatus.ok else ActStatus.error,
    finishedAt := some now,
    durationMs := some (now - a.startedAt),
    payload := if ok then result else a.payload,
    errMsg := if err.isSome then err else a.errMsg }

/-- `ActivityStore.finish`: find the record with the given id and mutate
it; if no record matches, do nothing.  `result` models the optional
`result` argument, `err` the optional (truthy) `error` argument. -/
def ActivityStore.finish (s : ActivityStore) (id : Nat) (ok : Bool)
    (result : Option JVal) (err : Option String) (now : Nat) : ActivityStore :=
  { s with activities :=
      (updateFirst (fun a => a.id == id) (finishUpdate ok result err now)
        s.activities) }

/-- `ActivityStore.getAll`. -/
def ActivityStore.getAll (s : ActivityStore) : List Activity := s.activities

/-- `ActivityStore.clear`. -/
def ActivityStore.clear (s : ActivityStore) : ActivityStore :=
  { s with activities := [] }

/-! ## Command dispatcher (`src/commands/registry.ts`, `dispatchCommand`)

A handler is an async function of the parameters; its observable outcome
is either a resolved payload or a raised/rejected error message (a
synchronous `throw` and an asynchronous rejection both land in the same
`catch` block of `dispatchCommand`, with `message = err.message` or
`String(err)`).  The registry map is a parameter, so the theorems below
quantify over every possible handler behaviour. -/

inductive HandlerOutcome where
  | success (payload : JVal) : HandlerOutcome
  | failure (message : String) : HandlerOutcome
  deriving DecidableEq, Repr

abbrev Handler := JVal → HandlerOutcome

inductive Envelope where
  | ok (payload : JVal) : Envelope
  | err (code : String) (message : String) : Envelope
  deriving DecidableEq, Repr

/-- `dispatchCommand(command, params)` from `registry.ts` (lines 103–133):
look up the handler (absent ⇒ `UNKNOWN_COMMAND` failure envelope, no
activity recorded); otherwise record an activity start, run the handler
guarded, record the finish, and return the uniform envelope.  The
function is total: it never throws. -/
def dispatchCommand (registry : String → Option Handler) (store : ActivityStore)
    (command : String) (params : JVal) (now : Nat) : Envelope × ActivityStore :=
  match registry command with
  | none =>
      (Envelope.err "UNKNOWN_COMMAND" ("Unknown command: " ++ command), store)
  | some handler =>
      let idStore := store.start command params now
      match handler params with
      | HandlerOutcome.success payload =>
          (Envelope.ok payload,
           (idStore.2).finish idStore.1 true (some payload) none now)
      | HandlerOutcome.failure msg =>
          (Envelope.err "COMMAND_ERROR" msg,
           (idStore.2).finish idStore.1 false none (some msg) now)

/-! ## Inbound invocation routing (`gateway-client.ts`, `GatewayClient`)

Embedded from the `GatewayClient` source: `coerceInvokePayload` (the
malformed-frame policy), `handleInvoke` (params parse-degrade and the
guarded handler call) and `sendInvokeResult` (result-frame construction
and the drop-on-send-failure path: `request` rejects with
`not connected` when the socket is not open, and `sendInvokeResult`
catches that error and only logs it).  `JSON.parse` of the params is
abstracted as a `parse` parameter, and the socket state
(`ws.readyState === OPEN`) as a `connected` flag. -/

/-- JavaScript `String.prototype.trim`: strip leading and trailing
whitespace. -/
def jsTrim (s : String) : String :=
  String.mk (((s.data.dropWhile Char.isWhitespace).reverse.dropWhile
    Char.isWhitespace).reverse)

/-- The raw `parsed.payload` of a `node.invoke.request` event: each
field is either present with the expected type (`some`) or missing /
differently typed (`none`). -/
structure RawInvokeMsg where
  id : Option String
  nodeId : Option String
  command : Option String
  paramsJSON : Option String
  params : Option JVal
  timeoutMs : Option Int
  deriving DecidableEq, Repr

/-- `typeof obj.x === "string" ? obj.x.trim() : ""` from
`coerceInvokePayload`. -/
def coerceStr : Option String → String
  | some s => jsTrim s
  | none => ""

/-- `JSON.stringify` for the modelled values (string escaping is not
modelled; no claim observes the serialized text). -/
def jsonStringify : JVal → String
  | JVal.null => "null"
  | JVal.bool true => "true"
  | JVal.bool false => "false"
  | JVal.num n => toString n
  | JVal.str s => "\"" ++ s ++ "\""
  | JVal.emptyObj => "\x7b\x7d"

/-- The coerced Invocation Frame (`InvokeRequestPayload` in the
source). -/
structure InvokeRequestPayload where
  id : String
  nodeId : String
  command : String
  paramsJSON : Option String
  timeoutMs : Option Int
  deriving DecidableEq, Repr

/-- The `paramsJSON` the frame carries: a string `paramsJSON` is taken
as is; otherwise a structured `params` is serialized; otherwise null. -/
def coerceParamsJSON (obj : RawInvokeMsg) : Option String :=
  match obj.paramsJSON with
  | some s => some s
  | none =>
      match obj.params with
      | some v => some (jsonStringify v)
      | none => none

/-- `GatewayClient.coerceInvokePayload`: reject a missing or non-object
payload (`none`); trim `id`, `nodeId` and `command` (a missing or
non-string field coerces to `""`) and reject the frame if any of the
three is empty; carry `paramsJSON` and `timeoutMs` through. -/
def coerceInvokePayload : Option RawInvokeMsg → Option InvokeRequestPayload
  | none => none
  | some obj =>
      if coerceStr obj.id = "" ∨ coerceStr obj.nodeId = "" ∨
          coerceStr obj.command = "" then none
      else
        some { id := coerceStr obj.id, nodeId := coerceStr obj.nodeId,
               command := coerceStr obj.command,
               paramsJSON := coerceParamsJSON obj,
               timeoutMs := obj.timeoutMs }

/-- The observable outcome of `opts.onInvoke(command, params)`: the
promise resolves with a result envelope, or it throws synchronously /
rejects asynchronously. -/
inductive InvokeOutcome where
  | result (env : Envelope) : InvokeOutcome
  | thrown (message : String) : InvokeOutcome
  deriving DecidableEq, Repr

/-- The wiring in `extension.ts`:
`onInvoke: (command, params) => dispatchCommand(command, params)`.
`dispatchCommand` is total, so this `onInvoke` never throws. -/
def extensionOnInvoke (registry : String → Option Handler)
    (store : ActivityStore) (now : Nat) : String → JVal → InvokeOutcome :=
  fun command params =>
    InvokeOutcome.result (dispatchCommand registry store command params now).1

/-- The params of an outbound `node.invoke.result` request, as built by
`sendInvokeResult`: `payloadJSON` on success, `error` on failure. -/
structure ResultMsg where
  id : String
  nodeId : String
  ok : Bool
  payloadJSON : Option String
  error : Option (String × String)
  deriving DecidableEq, Repr

/-- The result params `sendInvokeResult` builds from the frame and the
dispatcher's envelope. -/
def resultParams (frame : InvokeRequestPayload) (env : Envelope) : ResultMsg :=
  match env with
  | Envelope.ok payload =>
      { id := frame.id, nodeId := frame.nodeId, ok := true,
        payloadJSON := some (jsonStringify payload), error := none }
  | Envelope.err code msg =>
      { id := frame.id, nodeId := frame.nodeId, ok := false,
        payloadJSON := none, error := some (code, msg) }

/-- `GatewayClient.sendInvokeResult`: send the result as one
`node.invoke.result` request.  `request` rejects with `not connected`
when the socket is not open; `sendInvokeResult` catches that, logs it,
and the result is dropped — never retried.  The returned list holds the
frames that actually went out on the wire, so `sendInvokeResult` itself
never rejects. -/
def sendInvokeResult (connected : Bool) (frame : InvokeRequestPayload)
    (env : Envelope) : List ResultMsg :=
  if connected then [resultParams frame env] else []

/-- Lines 323–330 of `GatewayClient.handleInvoke`: a falsy `paramsJSON`
(missing or the empty string) leaves `params = {}`, and a `JSON.parse`
failure also degrades to `{}`. -/
def parseParams (parse : String → Option JVal) : Option String → JVal
  | some s => if s = "" then JVal.emptyObj else (parse s).getD JVal.emptyObj
  | none => JVal.emptyObj

/-- `GatewayClient.handleInvoke`: parse the params, call
`opts.onInvoke` guarded, and hand exactly one Invocation Result to
`sendInvokeResult`: the handler's envelope on resolution, or an
`INTERNAL_ERROR` envelope when `onInvoke` itself threw.
(`sendInvokeResult` never rejects — see above — so the catch branch
fires only for `onInvoke` failures; no second result is produced.) -/
def handleInvoke (onInvoke : String → JVal → InvokeOutcome)
    (parse : String → Option JVal) (connected : Bool)
    (frame : InvokeRequestPayload) : List ResultMsg :=
  match onInvoke frame.command (parseParams parse frame.paramsJSON) with
  | InvokeOutcome.result env => sendInvokeResult connected frame env
  | InvokeOutcome.thrown msg =>
      sendInvokeResult connected frame (Envelope.err "INTERNAL_ERROR" msg)

/-- The `node.invoke.request` branch of `GatewayClient.handleMessage`:
coerce the payload and handle the frame if it is valid; a malformed
payload is dropped with no reply. -/
def handleInvokeEvent (onInvoke : String → JVal → InvokeOutcome)
    (parse : String → Option JVal) (connected : Bool)
    (payload : Option RawInvokeMsg) : List ResultMsg :=
  match coerceInvokePayload payload with
  | none => []
  | some frame => handleInvoke onInvoke parse connected frame

/-! ## Reconnect backoff (`gateway-client.ts`, `scheduleReconnect`)

Embedded from the `GatewayClient` source: the constructor initializes
`backoffMs = 1000`; `scheduleReconnect` (after every close, unless the
client is stopped) waits the current `backoffMs` and then doubles it,
capped (`this.backoffMs = Math.min(this.backoffMs * 2, 30_000)`); the
success handler of the `connect` request in `sendConnect` resets
`this.backoffMs = 1000`. -/

def backoffInitial : Nat := 1000

def backoffCap : Nat := 30000

/-- `Math.min(this.backoffMs * 2, 30_000)` from `scheduleReconnect`. -/
def nextBackoff (b : Nat) : Nat := min (b * 2) backoffCap

/-- The delays waited by `n` consecutive failed attempts when the
current backoff is `b`: `scheduleReconnect` waits the current backoff,
then doubles it (capped). -/
def backoffDelays : Nat → Nat → List Nat
  | _, 0 => []
  | b, n + 1 => b :: backoffDelays (nextBackoff b) n

/-- Connection-level events seen by the backoff policy: a failed
attempt (close → `scheduleReconnect`) or a successful handshake
(`connect` resolves). -/
inductive ConnEvent where
  | attemptFailed : ConnEvent
  | handshakeOk : ConnEvent
  deriving DecidableEq, Repr

/-- One step of the backoff state machine; the state is the current
`backoffMs` together with the log of delays waited so far.  A failed
attempt waits the current backoff and doubles it (`scheduleReconnect`);
a successful handshake resets the backoff to 1000ms (`sendConnect`'s
success handler). -/
def backoffStep : Nat × List Nat → ConnEvent → Nat × List Nat
  | (b, ds), ConnEvent.attemptFailed => (nextBackoff b, ds ++ [b])
  | (_, ds), ConnEvent.handshakeOk => (backoffInitial, ds)

/-- Run the backoff machine from the constructor state
(`backoffMs = 1000`). -/
def backoffRun (events : List ConnEvent) : Nat × List Nat :=
  events.foldl backoffStep (backoffInitial, [])

/-! ## Handshake idempotence guard (`gateway-client.ts`,
`queueConnect` / `sendConnect`)

Embedded from the `GatewayClient` source: on channel open,
`queueConnect` clears `connectNonce`, clears the `connectSent` flag and
arms a 750ms timer that fires `sendConnect`.  The `connect.challenge`
handler stores a truthy nonce and calls `sendConnect` immediately (a
falsy nonce is ignored: `if (nonce) {...}`).  `sendConnect` returns at
once when `connectSent` is already set; otherwise it sets the flag,
defuses the timer, and sends exactly one handshake — v2 (nonce-signed)
when a nonce was captured, v1 otherwise. -/

inductive HsTrigger where
  | challenge (nonce : String) : HsTrigger
  | timer : HsTrigger
  deriving DecidableEq, Repr

inductive HsKind where
  | v2 (nonce : String) : HsKind
  | v1 : HsKind
  deriving DecidableEq, Repr

structure HsState where
  connectNonce : Option String
  connectSent : Bool
  sends : List HsKind
  deriving DecidableEq, Repr

/-- The state `queueConnect` establishes on channel open. -/
def hsInit : HsState :=
  { connectNonce := none, connectSent := false, sends := [] }

/-- `const version = nonce ? "v2" : "v1"` in `sendConnect`. -/
def hsKindOfNonce : Option String → HsKind
  | some n => HsKind.v2 n
  | none => HsKind.v1

/-- `GatewayClient.sendConnect`: no-op when `connectSent` is already
set; otherwise set the flag and send the handshake, v2 when a nonce was
captured and v1 otherwise. -/
def sendConnect (s : HsState) : HsState :=
  if s.connectSent then s
  else
    { s with connectSent := true,
             sends := s.sends ++ [hsKindOfNonce s.connectNonce] }

/-- One trigger: the `connect.challenge` handler (store a truthy nonce
and call `sendConnect`; a falsy nonce does nothing) or the 750ms timer
firing `sendConnect`. -/
def hsStep (s : HsState) (t : HsTrigger) : HsState :=
  match t with
  | HsTrigger.challenge nonce =>
      if nonce = "" then s
      else sendConnect { s with connectNonce := some nonce }
  | HsTrigger.timer => sendConnect s

/-- All triggers fired during one connection attempt, in order, from
the `queueConnect` state. -/
def hsRun (ts : List HsTrigger) : HsState := ts.foldl hsStep hsInit

/-- The handshake version produced when this trigger is the first
effective one to fire. -/
def hsKindOf : HsTrigger → HsKind
  | HsTrigger.challenge n => HsKind.v2 n
  | HsTrigger.timer => HsKind.v1

/-- A trigger that actually fires `sendConnect`: the timer, or a
challenge carrying a truthy (non-empty) nonce. -/
def effectiveTrigger : HsTrigger → Bool
  | HsTrigger.challenge n => !(n == "")
  | HsTrigger.timer => true

/-! ## Supporting lemmas -/

theorem updateFirst_length (p : α → Bool) (f : α → α) (l : List α) :
    (updateFirst p f l).length = l.length := by
  induction l with
  | nil => rfl
  | cons x xs ih => cases hp : p x <;> simp [updateFirst, hp, ih]

theorem updateFirst_eq_of_none (p : α → Bool) (f : α → α) (l : List α)
    (h : ∀ x ∈ l, p x = false) : updateFirst p f l = l := by
  induction l with
  | nil => rfl
  | cons x xs ih =>
    have hx := h x (List.mem_cons_self x xs)
    simp [updateFirst, hx, ih fun y hy => h y (List.mem_cons_of_mem x hy)]

theorem updateFirst_map_eq (p : α → Bool) (f : α → α) (g : α → β) (l : List α)
    (h : ∀ a, g (f a) = g a) : (updateFirst p f l).map g = l.map g := by
  induction l with
  | nil => rfl
  | cons x xs ih => cases hp : p x <;> simp [updateFirst, hp, ih, h]

theorem hsStep_sent (s : HsState) (h : s.connectSent = true) (t : HsTrigger) :
    (hsStep s t).connectSent = true ∧ (hsStep s t).sends = s.sends := by
  cases t with
  | challenge n =>
    by_cases hn : n = ""
    · simp [hsStep, hn, h]
    · simp [hsStep, hn, sendConnect, h]
  | timer => simp [hsStep, sendConnect, h]

theorem hsRun_sent (ts : List HsTrigger) : ∀ s : HsState, s.connectSent = true →
    (List.foldl hsStep s ts).sends = s.sends := by
  induction ts with
  | nil => intro s _; rfl
  | cons t ts ih =>
    intro s h
    rw [List.foldl_cons, ih _ (hsStep_sent s h t).1, (hsStep_sent s h t).2]

theorem hsRun_ineffective (pre : List HsTrigger) :
    (∀ e ∈ pre, effectiveTrigger e = false) →
    List.foldl hsStep hsInit pre = hsInit := by
  induction pre with
  | nil => intro _; rfl
  | cons t pre ih =>
    intro hpre
    have ht := hpre t (List.mem_cons_self _ _)
    have hstep : hsStep hsInit t = hsInit := by
      cases t with
      | challenge n =>
        have hn : n = "" := by simpa [effectiveTrigger] using ht
        simp [hsStep, hn]
      | timer => simp [effectiveTrigger] at ht
    rw [List.foldl_cons, hstep]
    exact ih fun e he => hpre e (List.mem_cons_of_mem _ he)

theorem sendInvokeResult_spec (connected : Bool) (frame : InvokeRequestPayload)
    (env : Envelope) :
    (sendInvokeResult connected frame env).length = (if connected then 1 else 0) ∧
    ∀ m ∈ sendInvokeResult connected frame env,
      m.id = frame.id ∧ m.nodeId = frame.nodeId := by
  cases connected <;> cases env <;> simp [sendInvokeResult, resultParams]

theorem handleInvoke_spec (onInvoke : String → JVal → InvokeOutcome)
    (parse : String → Option JVal) (connected : Bool)
    (frame : InvokeRequestPayload) :
    ∃ env, handleInvoke onInvoke parse connected frame =
      sendInvokeResult connected frame env := by
  unfold handleInvoke
  cases onInvoke frame.command (parseParams parse frame.paramsJSON) with
  | result env => exact ⟨env, rfl⟩
  | thrown msg => exact ⟨Envelope.err "INTERNAL_ERROR" msg, rfl⟩

/-! ## Claim theorems: dispatcher and invocation routing -/

/-- C1: for every valid Invocation Frame (the payload coerces: `id`,
`nodeId` and `command` non-empty after trimming), exactly one
Invocation Result is produced and handed to `sendInvokeResult`,
correlated by the frame's id — for every handler behaviour (an
envelope, or a synchronous throw / asynchronous rejection, which
`handleInvoke` converts to an `INTERNAL_ERROR` envelope) and every
params-parse outcome.  The single result goes out on the wire exactly
once while the socket is open; when the socket has dropped, `request`
rejects with `not connected` and the one result is logged and
discarded — the source's designed lost-result path — never duplicated
and never retried.  On the dispatcher side, `extensionOnInvoke` wires
`onInvoke` to `dispatchCommand`, which is total: with it (and an open
socket) exactly one result frame is sent for every registry, including
registries whose handlers throw or return arbitrary values
(`C7_dispatch_envelope` gives the envelope's exact shape). -/
theorem C1_exactly_one_result (onInvoke : String → JVal → InvokeOutcome)
    (parse : String → Option JVal) (connected : Bool) (msg : RawInvokeMsg)
    (frame : InvokeRequestPayload)
    (hframe : coerceInvokePayload (some msg) = some frame) :
    ((handleInvokeEvent onInvoke parse connected (some msg)).length =
      if connected then 1 else 0) ∧
    (∀ m ∈ handleInvokeEvent onInvoke parse connected (some msg),
      m.id = frame.id ∧ m.nodeId = frame.nodeId) ∧
    (∀ registry store now,
      (handleInvokeEvent (extensionOnInvoke registry store now) parse true
        (some msg)).length = 1) := by
  have hev : ∀ oi : String → JVal → InvokeOutcome, ∀ p c, ∃ env,
      handleInvokeEvent oi p c (some msg) = sendInvokeResult c frame env := by
    intro oi p c
    obtain ⟨env, henv⟩ := handleInvoke_spec oi p c frame
    exact ⟨env, by simp [handleInvokeEvent, hframe, henv]⟩
  obtain ⟨env, henv⟩ := hev onInvoke parse connected
  refine ⟨?_, ?_, ?_⟩
  · rw [henv]
    exact (sendInvokeResult_spec connected frame env).1
  · rw [henv]
    exact (sendInvokeResult_spec connected frame env).2
  · intro registry store now
    obtain ⟨env2, henv2⟩ := hev (extensionOnInvoke registry store now) parse true
    rw [henv2]
    exact (sendInvokeResult_spec true frame env2).1

theorem C1_exactly_one_result_witness :
    coerceInvokePayload (some ⟨some " i ", some "n", some "c", none, none, none⟩) =
      some ⟨"i", "n", "c", none, none⟩ ∧
    (handleInvokeEvent (fun _ _ => InvokeOutcome.thrown "boom") (fun _ => none)
      true (some ⟨some " i ", some "n", some "c", none, none, none⟩)).length = 1 ∧
    (handleInvokeEvent (fun _ _ => InvokeOutcome.thrown "boom") (fun _ => none)
      false (some ⟨some " i ", some "n", some "c", none, none, none⟩)).length = 0 ∧
    (∀ m ∈ handleInvokeEvent (fun _ _ => InvokeOutcome.thrown "boom")
        (fun _ => none) true
        (some ⟨some " i ", some "n", some "c", none, none, none⟩),
      m.id = "i" ∧ m.nodeId = "n") :=
  ⟨by decide,
   (C1_exactly_one_result (fun _ _ => InvokeOutcome.thrown "boom") (fun _ => none)
     true ⟨some " i ", some "n", some "c", none, none, none⟩
     ⟨"i", "n", "c", none, none⟩ (by decide)).1,
   (C1_exactly_one_result (fun _ _ => InvokeOutcome.thrown "boom") (fun _ => none)
     false ⟨some " i ", some "n", some "c", none, none, none⟩
     ⟨"i", "n", "c", none, none⟩ (by decide)).1,
   (C1_exactly_one_result (fun _ _ => InvokeOutcome.thrown "boom") (fun _ => none)
     true ⟨some " i ", some "n", some "c", none, none, none⟩
     ⟨"i", "n", "c", none, none⟩ (by decide)).2.1⟩

/-- C2: a malformed `node.invoke.request` payload — not an object, or
with `id`, `nodeId` or `command` empty (or missing, or not a string)
after trimming — is silently dropped by `coerceInvokePayload`: no
Invocation Result is sent, and the outcome does not depend on the
handler or the parser at all, so no handler is invoked. -/
theorem C2_malformed_dropped (onInvoke onInvoke2 : String → JVal → InvokeOutcome)
    (parse parse2 : String → Option JVal) (connected : Bool) (msg : RawInvokeMsg)
    (hmal : coerceStr msg.id = "" ∨ coerceStr msg.nodeId = "" ∨
      coerceStr msg.command = "") :
    handleInvokeEvent onInvoke parse connected (some msg) = [] ∧
    handleInvokeEvent onInvoke parse connected (some msg) =
      handleInvokeEvent onInvoke2 parse2 connected (some msg) ∧
    handleInvokeEvent onInvoke parse connected none = [] := by
  have hc : coerceInvokePayload (some msg) = none := by
    show (if coerceStr msg.id = "" ∨ coerceStr msg.nodeId = "" ∨
        coerceStr msg.command = "" then none else _) = none
    exact if_pos hmal
  exact ⟨by simp [handleInvokeEvent, hc], by simp [handleInvokeEvent, hc], rfl⟩

theorem C2_malformed_dropped_witness :
    coerceStr (some "  ") = "" ∧
    handleInvokeEvent (fun _ _ => InvokeOutcome.result (Envelope.ok JVal.null))
      (fun _ => none) true
      (some ⟨some "  ", some "n", some "c", none, none, none⟩) = [] :=
  ⟨by decide,
   (C2_malformed_dropped (fun _ _ => InvokeOutcome.result (Envelope.ok JVal.null))
     (fun _ _ => InvokeOutcome.thrown "x") (fun _ => none)
     (fun _ => some JVal.null) true
     ⟨some "  ", some "n", some "c", none, none, none⟩
     (Or.inl (by decide))).1⟩

/-- C7: `dispatchCommand` never throws and always returns the uniform
envelope: an unknown command yields an `UNKNOWN_COMMAND` structured
failure; a handler that throws or rejects with message `msg` yields a
`COMMAND_ERROR` failure carrying that message; a successful handler
yields `ok` with its payload. -/
theorem C7_dispatch_envelope (registry : String → Option Handler)
    (store : ActivityStore) (command : String) (params : JVal) (now : Nat) :
    (registry command = none →
      dispatchCommand registry store command params now =
        (Envelope.err "UNKNOWN_COMMAND" ("Unknown command: " ++ command), store)) ∧
    (∀ hd payload, registry command = some hd →
      hd params = HandlerOutcome.success payload →
      (dispatchCommand registry store command params now).1 = Envelope.ok payload) ∧
    (∀ hd msg, registry command = some hd →
      hd params = HandlerOutcome.failure msg →
      (dispatchCommand registry store command params now).1 =
        Envelope.err "COMMAND_ERROR" msg) := by
  refine ⟨fun hnone => ?_, fun hd payload hsome hp => ?_, fun hd msg hsome hp => ?_⟩ <;>
    simp [dispatchCommand, *]

theorem C7_dispatch_envelope_witness :
    dispatchCommand (fun _ => none) ⟨[], 1⟩ "nope" JVal.null 0 =
      (Envelope.err "UNKNOWN_COMMAND" "Unknown command: nope", (⟨[], 1⟩ : ActivityStore)) ∧
    (dispatchCommand (fun _ => some fun _ => HandlerOutcome.failure "boom") ⟨[], 1⟩
      "c" JVal.null 0).1 = Envelope.err "COMMAND_ERROR" "boom" ∧
    (dispatchCommand (fun _ => some fun _ => HandlerOutcome.success (JVal.num 7)) ⟨[], 1⟩
      "c" JVal.null 0).1 = Envelope.ok (JVal.num 7) :=
  ⟨(C7_dispatch_envelope (fun _ => none) ⟨[], 1⟩ "nope" JVal.null 0).1 rfl,
   (C7_dispatch_envelope (fun _ => some fun _ => HandlerOutcome.failure "boom")
     ⟨[], 1⟩ "c" JVal.null 0).2.2 _ "boom" rfl rfl,
   (C7_dispatch_envelope (fun _ => some fun _ => HandlerOutcome.success (JVal.num 7))
     ⟨[], 1⟩ "c" JVal.null 0).2.1 _ (JVal.num 7) rfl rfl⟩

/-- C4: the handshake is sent exactly once per connection attempt: for
every trigger sequence in which some trigger actually fires the send —
the 750ms timer, or a `connect.challenge` carrying a truthy nonce —
preceded by any number of ignored (falsy-nonce) challenges and followed
by anything, including the race where the other trigger fires right
after, exactly one handshake goes out, and its version matches that
first effective trigger: v2 with the nonce for a challenge, v1 for the
timer.  The `connectSent` flag makes every later trigger a no-op send. -/
theorem C4_handshake_once (pre rest : List HsTrigger) (t : HsTrigger)
    (hpre : ∀ e ∈ pre, effectiveTrigger e = false)
    (ht : effectiveTrigger t = true) :
    (hsRun (pre ++ t :: rest)).sends.length = 1 ∧
    (hsRun (pre ++ t :: rest)).sends = [hsKindOf t] := by
  have hsends : (hsRun (pre ++ t :: rest)).sends = [hsKindOf t] := by
    rw [hsRun, List.foldl_append, hsRun_ineffective pre hpre, List.foldl_cons]
    have hstep : (hsStep hsInit t).connectSent = true ∧
        (hsStep hsInit t).sends = [hsKindOf t] := by
      cases t with
      | challenge n =>
        have hn : ¬ n = "" := by simpa [effectiveTrigger] using ht
        simp [hsStep, hn, sendConnect, hsInit, hsKindOfNonce, hsKindOf]
      | timer => simp [hsStep, sendConnect, hsInit, hsKindOfNonce, hsKindOf]
    rw [hsRun_sent rest _ hstep.1, hstep.2]
  exact ⟨by rw [hsends]; rfl, hsends⟩

theorem C4_handshake_once_witness :
    ((hsRun [HsTrigger.challenge "abc", HsTrigger.timer]).sends.length = 1 ∧
     (hsRun [HsTrigger.challenge "abc", HsTrigger.timer]).sends =
       [HsKind.v2 "abc"]) ∧
    ((hsRun [HsTrigger.timer, HsTrigger.challenge "abc"]).sends.length = 1 ∧
     (hsRun [HsTrigger.timer, HsTrigger.challenge "abc"]).sends = [HsKind.v1]) :=
  ⟨C4_handshake_once [] [HsTrigger.timer] (HsTrigger.challenge "abc")
     (by intro e he; simp at he) (by decide),
   C4_handshake_once [] [HsTrigger.challenge "abc"] HsTrigger.timer
     (by intro e he; simp at he) rfl⟩

/-! ## Claim theorems: reconnect backoff -/

theorem nextBackoff_ge (b : Nat) (hcap : b ≤ backoffCap) : b ≤ nextBackoff b :=
  Nat.le_min.mpr ⟨by omega, hcap⟩

theorem nextBackoff_bounds (b : Nat) (hlo : backoffInitial ≤ b) :
    backoffInitial ≤ nextBackoff b ∧ nextBackoff b ≤ backoffCap :=
  ⟨Nat.le_min.mpr ⟨by unfold backoffInitial at *; omega, by
      unfold backoffInitial backoffCap at *; omega⟩,
   Nat.min_le_right _ _⟩

theorem backoffDelays_head (b : Nat) (n : Nat) :
    (backoffDelays b (n + 1)).head? = some b := rfl

theorem backoffDelays_bounds (n : Nat) : ∀ b, backoffInitial ≤ b → b ≤ backoffCap →
    ∀ d ∈ backoffDelays b n, backoffInitial ≤ d ∧ d ≤ backoffCap := by
  induction n with
  | zero => intro b _ _ d hd; simp [backoffDelays] at hd
  | succ n ih =>
    intro b hlo hhi d hd
    rw [backoffDelays, List.mem_cons] at hd
    rcases hd with rfl | hd
    · exact ⟨hlo, hhi⟩
    · exact ih (nextBackoff b) (nextBackoff_bounds b hlo).1 (nextBackoff_bounds b hlo).2 d hd

theorem backoffDelays_chain_le (n : Nat) : ∀ b, b ≤ backoffCap →
    (backoffDelays b n).Chain' (· ≤ ·) := by
  induction n with
  | zero => intro b _; simp [backoffDelays]
  | succ n ih =>
    intro b hhi
    rw [backoffDelays, List.chain'_cons']
    refine ⟨?_, ih (nextBackoff b) (Nat.min_le_right _ _)⟩
    intro c hc
    cases n with
    | zero => simp [backoffDelays] at hc
    | succ m =>
      rw [backoffDelays_head, Option.mem_some_iff] at hc
      exact hc ▸ nextBackoff_ge b hhi

theorem backoffDelays_chain_double (n : Nat) : ∀ b,
    (backoffDelays b n).Chain' (fun a c => c = nextBackoff a) := by
  induction n with
  | zero => intro b; simp [backoffDelays]
  | succ n ih =>
    intro b
    rw [backoffDelays, List.chain'_cons']
    refine ⟨?_, ih (nextBackoff b)⟩
    intro c hc
    cases n with
    | zero => simp [backoffDelays] at hc
    | succ m =>
      rw [backoffDelays_head, Option.mem_some_iff] at hc
      exact hc.symm

theorem backoffRun_replicate (n : Nat) : ∀ b ds,
    (List.foldl backoffStep (b, ds) (List.replicate n ConnEvent.attemptFailed)).2 =
      ds ++ backoffDelays b n := by
  induction n with
  | zero => intro b ds; simp [backoffDelays]
  | succ n ih =>
    intro b ds
    simp only [List.replicate_succ, List.foldl_cons, backoffStep]
    rw [ih (nextBackoff b) (ds ++ [b])]
    simp [backoffDelays]

/-- C3: the reconnect backoff delays over any run of consecutive failed
attempts (starting fresh or right after a successful handshake) are the
sequence `backoffDelays 1000 n`: monotonically non-decreasing, starting
at 1000ms, each one the double of the previous capped at 30000ms, and
never exceeding 30000ms; a successful handshake always resets the
backoff to 1000ms, so the delays following it again start at 1000ms. -/
theorem C3_backoff (n : Nat) :
    (backoffDelays backoffInitial n).Chain' (· ≤ ·) ∧
    (backoffDelays backoffInitial n).Chain' (fun a c => c = min (a * 2) backoffCap) ∧
    (0 < n → (backoffDelays backoffInitial n).head? = some 1000) ∧
    (∀ d ∈ backoffDelays backoffInitial n, 1000 ≤ d ∧ d ≤ 30000) ∧
    (∀ es, (backoffRun (es ++ [ConnEvent.handshakeOk])).1 = backoffInitial) ∧
    (∀ es, (backoffRun
        (es ++ ConnEvent.handshakeOk :: List.replicate n ConnEvent.attemptFailed)).2 =
      (backoffRun (es ++ [ConnEvent.handshakeOk])).2 ++ backoffDelays backoffInitial n) := by
  refine ⟨backoffDelays_chain_le n backoffInitial (by norm_num [backoffInitial, backoffCap]),
    backoffDelays_chain_double n backoffInitial, ?_, ?_, ?_, ?_⟩
  · intro hn
    cases n with
    | zero => omega
    | succ m => exact backoffDelays_head backoffInitial m
  · exact backoffDelays_bounds n backoffInitial (le_refl _)
      (by norm_num [backoffInitial, backoffCap])
  · intro es
    rw [backoffRun, List.foldl_append]
    rcases List.foldl backoffStep (backoffInitial, []) es with ⟨b, ds⟩
    rfl
  · intro es
    rw [backoffRun, backoffRun]
    rw [show ConnEvent.handshakeOk :: List.replicate n ConnEvent.attemptFailed =
      [ConnEvent.handshakeOk] ++ List.replicate n ConnEvent.attemptFailed from rfl,
      ← List.append_assoc, List.foldl_append]
    rcases h : List.foldl backoffStep (backoffInitial, []) (es ++ [ConnEvent.handshakeOk])
      with ⟨b, ds⟩
    have hb : b = backoffInitial := by
      have := congrArg Prod.fst h
      rw [List.foldl_append] at this
      rcases List.foldl backoffStep (backoffInitial, []) es with ⟨b2, ds2⟩
      simpa [backoffStep] using this.symm
    subst hb
    rw [backoffRun_replicate]

theorem C3_backoff_witness :
    (backoffDelays backoffInitial 6).head? = some 1000 ∧
    backoffDelays backoffInitial 6 = [1000, 2000, 4000, 8000, 16000, 30000] ∧
    (1000 ≤ 16000 ∧ 16000 ≤ 30000) ∧
    (backoffRun [ConnEvent.attemptFailed, ConnEvent.handshakeOk]).1 = backoffInitial :=
  ⟨(C3_backoff 6).2.2.1 (by decide), by decide,
   (C3_backoff 6).2.2.2.1 16000 (by decide),
   (C3_backoff 6).2.2.2.2.1 [ConnEvent.attemptFailed]⟩

/-! ## Claim theorems: activity store -/

/-- C10: the activity store keeps at most 200 records after every
operation; `start` hands out the fresh id `nextId` (strictly greater
than every id already stored, and incremented afterwards), inserts the
new `running` record at the front and truncates to 200, keeping the ids
strictly decreasing from front to back (newest first); `finish`
preserves the length and the ids, and is a no-op when the id is not
present; `getAll` returns exactly the stored list. -/
theorem C10_activity_store (s : ActivityStore) (c : String) (p : JVal)
    (now : Nat) (id : Nat) (ok : Bool) (res : Option JVal) (err : Option String)
    (hfresh : ∀ a ∈ s.activities, a.id < s.nextId)
    (hsorted : (s.activities.map (fun a => a.id)).Pairwise (fun i j => j < i)) :
    ((s.start c p now).2.activities.length ≤ 200) ∧
    ((s.start c p now).1 = s.nextId ∧ (s.start c p now).2.nextId = s.nextId + 1) ∧
    (∀ a ∈ s.activities, a.id < (s.start c p now).1) ∧
    ((s.start c p now).2.activities.head? =
      some { id := s.nextId, command := c, params := p,
             status := ActStatus.running, startedAt := now }) ∧
    (((s.start c p now).2.activities.map (fun a => a.id)).Pairwise (fun i j => j < i)) ∧
    (∀ a ∈ (s.start c p now).2.activities, a.id < (s.start c p now).2.nextId) ∧
    ((s.finish id ok res err now).activities.length = s.activities.length) ∧
    ((s.finish id ok res err now).activities.map (fun a => a.id) =
      s.activities.map (fun a => a.id)) ∧
    (id ∉ s.activities.map (fun a => a.id) → s.finish id ok res err now = s) ∧
    (s.getAll = s.activities ∧ s.clear.activities.length = 0) := by
  refine ⟨?_, ⟨rfl, rfl⟩, fun a ha => hfresh a ha, ?_, ?_, ?_, ?_, ?_, ?_, rfl, rfl⟩
  · exact List.length_take_le maxEntries _
  · rw [ActivityStore.start]
    rw [show (maxEntries : Nat) = 199 + 1 from rfl, List.take_succ_cons]
    rfl
  · rw [ActivityStore.start]
    simp only [List.map_take]
    refine List.Pairwise.sublist (List.take_sublist _ _) ?_
    rw [List.map_cons, List.pairwise_cons]
    refine ⟨?_, hsorted⟩
    intro j hj
    rcases List.mem_map.mp hj with ⟨a, ha, rfl⟩
    exact hfresh a ha
  · intro a ha
    rw [ActivityStore.start] at ha
    simp only at ha
    have ha2 := List.take_subset maxEntries _ ha
    rcases List.mem_cons.mp ha2 with rfl | ha3
    · exact Nat.lt_succ_self s.nextId
    · exact Nat.lt_succ_of_lt (hfresh a ha3)
  · exact updateFirst_length _ _ _
  · exact updateFirst_map_eq _ _ _ _ (fun a => rfl)
  · intro hid
    rw [ActivityStore.finish, updateFirst_eq_of_none]
    intro x hx
    have : x.id ≠ id := by
      intro hEq
      exact hid (hEq ▸ List.mem_map_of_mem (fun a => a.id) hx)
    simpa using this

theorem C10_activity_store_witness :
    ((ActivityStore.start ⟨[], 1⟩ "vscode.file.read" JVal.null 5).2.activities.length ≤ 200) ∧
    ((ActivityStore.start ⟨[], 1⟩ "vscode.file.read" JVal.null 5).1 = 1) ∧
    (ActivityStore.finish ⟨[], 1⟩ 42 true none none 9 = (⟨[], 1⟩ : ActivityStore)) :=
  ⟨(C10_activity_store ⟨[], 1⟩ "vscode.file.read" JVal.null 5 42 true none none
      (by simp) (by simp)).1,
   (C10_activity_store ⟨[], 1⟩ "vscode.file.read" JVal.null 5 42 true none none
      (by simp) (by simp)).2.1.1,
   (C10_activity_store ⟨[], 1⟩ "vscode.file.read" JVal.null 5 42 true none none
      (by simp) (by simp)).2.2.2.2.2.2.2.2.1 (by simp)⟩

/-! ## Security guard: `isCommandAllowed` (`security.ts`, lines 39–50) -/

/-- The whitespace class of the JavaScript regex `\s` used by
`command.trim().split(/\s+/)` (only the common ASCII whitespace
characters are modelled). -/
def jsSpace (c : Char) : Bool := c = ' ' || c = '\t' || c = '\n' || c = '\r'

/-- `command.trim().split(/\s+/)[0]`: the first whitespace-delimited
token of the command line (empty when the line is empty or all
whitespace). -/
def firstTokenL (s : List Char) : List Char :=
  (s.dropWhile jsSpace).takeWhile (fun c => !jsSpace c)

/-- Node `path.basename` (posix): drop trailing separators, then take
everything after the last remaining separator. -/
def basenameL (p : List Char) : List Char :=
  ((p.reverse.dropWhile (fun c => c == '/')).takeWhile (fun c => c != '/')).reverse

/-- `isCommandAllowed(command, allowlist)` from `security.ts`: extract
the first whitespace-delimited token, take its `path.basename`, and
accept when the allow-list has a wildcard, an exact basename match, or
a `.exe`-suffixed basename match. -/
def isCommandAllowed (command : String) (allowlist : List String) : Bool :=
  let baseCmd := firstTokenL command.data
  if baseCmd.isEmpty then false
  else
    let baseName := basenameL baseCmd
    allowlist.any fun allowed =>
      allowed == "*" || baseName == allowed.data ||
        baseName == allowed.data ++ ".exe".data

/-- The claim's own formulation of the check (C6): match the extracted
FIRST TOKEN itself against the allow-list, with no `basename` step.
Stated only to compare it against `isCommandAllowed` from the source. -/
def specTokenAllowed (command : String) (allowlist : List String) : Bool :=
  let tok := firstTokenL command.data
  allowlist.any fun allowed =>
    allowed == "*" || tok == allowed.data || tok == allowed.data ++ ".exe".data

/-- C6 counterexample: the source applies `path.basename` to the first
token before matching, which the claim's token-only formulation does
not: `isCommandAllowed("a/npm", ["npm"])` is `true` in the source while
the claim's iff-condition is `false` at the same input. -/
theorem C6_isCommandAllowed_counterexample :
    isCommandAllowed "a/npm" ["npm"] = true ∧
    specTokenAllowed "a/npm" ["npm"] = false := by decide

/-- C6 (amended): `isCommandAllowed` extracts the first
whitespace-delimited token, takes its `path.basename`, and returns
`true` iff the token is non-empty and the allow-list contains the
wildcard `"*"`, an exact match of that basename, or the basename equals
an allow-list entry plus `".exe"`; the claim's three concrete examples
all hold. -/
theorem C6_isCommandAllowed (command : String) (allowlist : List String) :
    (isCommandAllowed command allowlist = true ↔
      (firstTokenL command.data ≠ [] ∧
        ("*" ∈ allowlist ∨
         (∃ a ∈ allowlist, basenameL (firstTokenL command.data) = a.data) ∨
         (∃ a ∈ allowlist,
           basenameL (firstTokenL command.data) = a.data ++ ".exe".data)))) ∧
    isCommandAllowed "npm test" ["npm"] = true ∧
    isCommandAllowed "rm -rf /" ["npm"] = false ∧
    isCommandAllowed "anything" ["*"] = true := by
  refine ⟨?_, by decide, by decide, by decide⟩
  by_cases hb : firstTokenL command.data = []
  · simp [isCommandAllowed, hb]
  · simp only [isCommandAllowed, List.isEmpty_iff, hb, if_false, ne_eq,
      not_false_eq_true, true_and, List.any_eq_true, Bool.or_eq_true, beq_iff_eq]
    constructor
    · rintro ⟨a, ha, (rfl | h) | h⟩
      · exact Or.inl ha
      · exact Or.inr (Or.inl ⟨a, ha, h⟩)
      · exact Or.inr (Or.inr ⟨a, ha, h⟩)
    · rintro (ha | ⟨a, ha, h⟩ | ⟨a, ha, h⟩)
      · exact ⟨"*", ha, Or.inl (Or.inl rfl)⟩
      · exact ⟨a, ha, Or.inl (Or.inr h)⟩
      · exact ⟨a, ha, Or.inr h⟩

/-! ## Security guard: `resolveWorkspacePath` (`security.ts`, lines 8–34)

Paths are modelled as lists of characters under POSIX semantics
(`path.sep = "/"`).  `path.resolve` on an absolute base is: split both
arguments into `/`-separated segments, then normalize left-to-right
(empty and `"."` segments are dropped, `".."` pops the previous
segment), and rejoin with a leading `/`.  The string comparison
`resolved.startsWith(root + path.sep)` of the source corresponds to
`(rootChars ++ [slash]) <+: resolvedChars`. -/

/-- A path segment (the text between two `/` separators). -/
abbrev Seg := List Char

/-- Split on `/`, keeping empty segments (like JS `String.split("/")`). -/
def splitSeg : List Char → List Char → List Seg
  | [], acc => [acc.reverse]
  | c :: cs, acc =>
      if c = '/' then acc.reverse :: splitSeg cs []
      else splitSeg cs (c :: acc)

def splitPath (p : List Char) : List Seg := splitSeg p []

/-- One step of absolute-path normalization: drop empty and `"."`
segments, let `".."` pop the previous segment, append anything else. -/
def normStep (acc : List Seg) (seg : Seg) : List Seg :=
  if seg = [] ∨ seg = ['.'] then acc
  else if seg = ['.', '.'] then acc.dropLast
  else acc ++ [seg]

/-- Normalize the segments of an absolute path. -/
def normAbs (segs : List Seg) : List Seg := segs.foldl normStep []

/-- Join segments with `/` separators (no leading slash). -/
def joinSegs : List Seg → List Char
  | [] => []
  | [s] => s
  | s :: s2 :: rest => s ++ '/' :: joinSegs (s2 :: rest)

/-- Join the segments of an absolute path (leading slash). -/
def joinAbs (segs : List Seg) : List Char := '/' :: joinSegs segs

/-- Node `path.isAbsolute` (posix): starts with a separator. -/
def isAbsolutePath (p : List Char) : Bool :=
  match p with
  | '/' :: _ => true
  | _ => false

/-- Node `path.resolve(root)` for an absolute `root`: normalization. -/
def pathResolveOne (root : List Char) : List Char :=
  joinAbs (normAbs (splitPath root))

/-- Node `path.resolve(root, rel)` for an absolute `root`: an absolute
`rel` wins outright, otherwise the segments are concatenated and
normalized. -/
def pathResolve (root rel : List Char) : List Char :=
  if isAbsolutePath rel then joinAbs (normAbs (splitPath rel))
  else joinAbs (normAbs (splitPath root ++ splitPath rel))

/-- `resolveWorkspacePath(relativePath)` from `security.ts`: reject
absolute inputs; resolve against the workspace root; reject unless the
resolved path equals the resolved root or starts with the resolved root
plus a separator; return the resolved path.  (`path.resolve` output is
already normalized, so the source's `normalizedResolved` equals
`resolved`.) -/
def resolveWorkspacePath (root rel : List Char) : Except String (List Char) :=
  if isAbsolutePath rel then Except.error "Absolute paths not allowed"
  else if pathResolve root rel ≠ pathResolveOne root ∧
      (pathResolveOne root ++ ['/']).isPrefixOf (pathResolve root rel) = false then
    Except.error "Path escapes workspace"
  else Except.ok (pathResolve root rel)

/-- `List.isPrefixOf` agrees with `<+:` (restated from the library so it
can be cited without clashing with tokens reserved elsewhere). -/
theorem isPrefixOf_eq_true_iff (l1 l2 : List Char) :
    l1.isPrefixOf l2 = true ↔ l1 <+: l2 := List.isPrefixOf_iff_prefix

/-- A well-formed path segment: non-empty and free of separators. -/
def CleanSeg (s : Seg) : Prop := s ≠ [] ∧ '/' ∉ s

theorem splitSeg_no_slash (cs : List Char) : ∀ acc, '/' ∉ acc →
    ∀ s ∈ splitSeg cs acc, '/' ∉ s := by
  induction cs with
  | nil =>
    intro acc hacc s hs
    rw [splitSeg, List.mem_singleton] at hs
    subst hs
    simpa using hacc
  | cons c cs ih =>
    intro acc hacc s hs
    rw [splitSeg] at hs
    by_cases hc : c = '/'
    · rw [if_pos hc] at hs
      rcases List.mem_cons.mp hs with rfl | hs2
      · simpa using hacc
      · exact ih [] (by simp) s hs2
    · rw [if_neg hc] at hs
      refine ih (c :: acc) ?_ s hs
      intro hmem
      rcases List.mem_cons.mp hmem with h | h
      · exact hc h.symm
      · exact hacc h

theorem normStep_clean (acc : List Seg) (seg : Seg)
    (hacc : ∀ s ∈ acc, CleanSeg s) (hseg : '/' ∉ seg) :
    ∀ s ∈ normStep acc seg, CleanSeg s := by
  intro s hs
  by_cases h1 : seg = [] ∨ seg = ['.']
  · rw [normStep, if_pos h1] at hs
    exact hacc s hs
  · by_cases h2 : seg = ['.', '.']
    · rw [normStep, if_neg h1, if_pos h2] at hs
      exact hacc s ((List.dropLast_sublist acc).subset hs)
    · rw [normStep, if_neg h1, if_neg h2] at hs
      rcases List.mem_append.mp hs with h | h
      · exact hacc s h
      · rw [List.mem_singleton] at h
        subst h
        exact ⟨fun hnil => h1 (Or.inl hnil), hseg⟩

theorem foldl_normStep_clean (segs : List Seg) : ∀ acc,
    (∀ s ∈ segs, '/' ∉ s) → (∀ s ∈ acc, CleanSeg s) →
    ∀ s ∈ List.foldl normStep acc segs, CleanSeg s := by
  induction segs with
  | nil => intro acc _ hacc; exact hacc
  | cons seg segs ih =>
    intro acc hsegs hacc
    rw [List.foldl_cons]
    exact ih (normStep acc seg)
      (fun s hs => hsegs s (List.mem_cons_of_mem _ hs))
      (normStep_clean acc seg hacc (hsegs seg (List.mem_cons_self _ _)))

theorem normAbs_clean (p : List Char) : ∀ s ∈ normAbs (splitPath p), CleanSeg s :=
  foldl_normStep_clean _ [] (splitSeg_no_slash p [] (by simp)) (by simp)

/-- Cancellation around the first separator: if two slash-free blocks
followed by `/` agree as character lists, the blocks agree. -/
theorem seg_slash_eq (x : List Char) : ∀ y u v : List Char, '/' ∉ x → '/' ∉ y →
    x ++ '/' :: u = y ++ '/' :: v → x = y ∧ u = v := by
  induction x with
  | nil =>
    intro y u v _ hy h
    cases y with
    | nil => simpa using h
    | cons d y2 =>
      rw [List.nil_append, List.cons_append, List.cons.injEq] at h
      exact absurd (List.mem_cons.mpr (Or.inl h.1)) hy
  | cons c x2 ih =>
    intro y u v hx hy h
    cases y with
    | nil =>
      rw [List.cons_append, List.nil_append, List.cons.injEq] at h
      exact absurd (List.mem_cons.mpr (Or.inl h.1.symm)) hx
    | cons d y2 =>
      rw [List.cons_append, List.cons_append, List.cons.injEq] at h
      obtain ⟨rfl, h2⟩ := h
      have hx2 : '/' ∉ x2 := fun hm => hx (List.mem_cons_of_mem _ hm)
      have hy2 : '/' ∉ y2 := fun hm => hy (List.mem_cons_of_mem _ hm)
      obtain ⟨hxy, huv⟩ := ih y2 u v hx2 hy2 h2
      exact ⟨by rw [hxy], huv⟩

theorem seg_slash_pre (x y u v : List Char) (hx : '/' ∉ x) (hy : '/' ∉ y)
    (h : (x ++ '/' :: u) <+: (y ++ '/' :: v)) : x = y ∧ u <+: v := by
  rcases h with ⟨t, ht⟩
  rw [List.append_assoc, List.cons_append] at ht
  obtain ⟨hxy, huv⟩ := seg_slash_eq x y (u ++ t) v hx hy ht
  exact ⟨hxy, ⟨t, huv⟩⟩

/-- `joinSegs` is injective on clean segment lists. -/
theorem joinSegs_inj (A : List Seg) : ∀ B : List Seg,
    (∀ s ∈ A, CleanSeg s) → (∀ s ∈ B, CleanSeg s) →
    joinSegs A = joinSegs B → A = B := by
  induction A with
  | nil =>
    intro B _ hB h
    cases B with
    | nil => rfl
    | cons b B2 =>
      cases B2 with
      | nil =>
        simp only [joinSegs] at h
        exact absurd h.symm (hB b (List.mem_cons_self _ _)).1
      | cons b2 B3 =>
        simp only [joinSegs] at h
        exact absurd h.symm (by simp)
  | cons a A2 ih =>
    intro B hA hB h
    cases B with
    | nil =>
      cases A2 with
      | nil =>
        simp only [joinSegs] at h
        exact absurd h (hA a (List.mem_cons_self _ _)).1
      | cons a2 A3 =>
        simp only [joinSegs] at h
        exact absurd h (by simp)
    | cons b B2 =>
      cases A2 with
      | nil =>
        cases B2 with
        | nil =>
          simp only [joinSegs] at h
          rw [h]
        | cons b2 B3 =>
          simp only [joinSegs] at h
          have hmem : '/' ∈ a := by
            rw [h]
            exact List.mem_append.mpr (Or.inr (List.mem_cons_self _ _))
          exact absurd hmem (hA a (List.mem_cons_self _ _)).2
      | cons a2 A3 =>
        cases B2 with
        | nil =>
          simp only [joinSegs] at h
          have hmem : '/' ∈ b := by
            rw [← h]
            exact List.mem_append.mpr (Or.inr (List.mem_cons_self _ _))
          exact absurd hmem (hB b (List.mem_cons_self _ _)).2
        | cons b2 B3 =>
          simp only [joinSegs] at h
          obtain ⟨rfl, h2⟩ := seg_slash_eq a b _ _
            (hA a (List.mem_cons_self _ _)).2 (hB b (List.mem_cons_self _ _)).2 h
          have hrest := ih (b2 :: B3)
            (fun s hs => hA s (List.mem_cons_of_mem _ hs))
            (fun s hs => hB s (List.mem_cons_of_mem _ hs)) h2
          rw [hrest]

/-- If the joined form of `B` extended by a separator is a (string)
prefix of the joined form of `A`, then `B` is a (segment-list) prefix
of `A` — for clean, non-empty `B`. -/
theorem joinSegs_pre_of_pre (B : List Seg) : ∀ A : List Seg,
    (∀ s ∈ A, CleanSeg s) → (∀ s ∈ B, CleanSeg s) → B ≠ [] →
    (joinSegs B ++ ['/']) <+: joinSegs A → B <+: A := by
  induction B with
  | nil => intro A _ _ hne; exact absurd rfl hne
  | cons b B2 ih =>
    intro A hA hB _ h
    cases B2 with
    | nil =>
      cases A with
      | nil =>
        simp only [joinSegs] at h
        rcases h with ⟨t, ht⟩
        exact absurd ht (by simp)
      | cons a A2 =>
        cases A2 with
        | nil =>
          simp only [joinSegs] at h
          rcases h with ⟨t, ht⟩
          have hmem : '/' ∈ a := by
            rw [← ht]
            simp
          exact absurd hmem (hA a (List.mem_cons_self _ _)).2
        | cons a2 A3 =>
          simp only [joinSegs] at h
          have h2 : (b ++ '/' :: ([] : List Char)) <+: a ++ '/' :: joinSegs (a2 :: A3) := h
          obtain ⟨rfl, -⟩ := seg_slash_pre b a [] _
            (hB b (List.mem_cons_self _ _)).2 (hA a (List.mem_cons_self _ _)).2 h2
          exact ⟨a2 :: A3, rfl⟩
    | cons b2 B3 =>
      cases A with
      | nil =>
        simp only [joinSegs] at h
        rcases h with ⟨t, ht⟩
        exact absurd ht (by simp)
      | cons a A2 =>
        cases A2 with
        | nil =>
          simp only [joinSegs] at h
          rcases h with ⟨t, ht⟩
          have hmem : '/' ∈ a := by
            rw [← ht]
            simp
          exact absurd hmem (hA a (List.mem_cons_self _ _)).2
        | cons a2 A3 =>
          simp only [joinSegs] at h
          have h2 : (b ++ '/' :: (joinSegs (b2 :: B3) ++ ['/'])) <+:
              a ++ '/' :: joinSegs (a2 :: A3) := by
            rcases h with ⟨t, ht⟩
            refine ⟨t, ?_⟩
            rw [← ht]
            simp [List.append_assoc]
          obtain ⟨rfl, hpre⟩ := seg_slash_pre b a _ _
            (hB b (List.mem_cons_self _ _)).2 (hA a (List.mem_cons_self _ _)).2 h2
          have hsub := ih (a2 :: A3)
            (fun s hs => hA s (List.mem_cons_of_mem _ hs))
            (fun s hs => hB s (List.mem_cons_of_mem _ hs))
            (by simp) hpre
          rcases hsub with ⟨t, ht⟩
          exact ⟨t, by rw [List.cons_append, ht]⟩

/-- Joining distributes over appending non-empty segment lists. -/
theorem joinSegs_append (B : List Seg) : ∀ C : List Seg, B ≠ [] → C ≠ [] →
    joinSegs (B ++ C) = joinSegs B ++ '/' :: joinSegs C := by
  induction B with
  | nil => intro C h _; exact absurd rfl h
  | cons b B2 ih =>
    intro C _ hC
    cases B2 with
    | nil =>
      cases C with
      | nil => exact absurd rfl hC
      | cons c C2 => simp only [List.cons_append, List.nil_append, joinSegs]
    | cons b2 B3 =>
      have ih2 := ih C (by simp) hC
      simp only [List.cons_append, joinSegs, List.append_eq]
      rw [show b2 :: (B3 ++ C) = (b2 :: B3) ++ C from rfl, ih2]
      simp [List.append_assoc]

theorem pathResolve_rel (root rel : List Char) (hrel : isAbsolutePath rel = false) :
    pathResolve root rel =
      joinAbs (List.foldl normStep (normAbs (splitPath root)) (splitPath rel)) := by
  simp only [pathResolve, hrel, Bool.false_eq_true, if_false]
  simp only [normAbs]
  rw [List.foldl_append]

theorem dotdot_escapes (root : List Char)
    (hne : normAbs (splitPath root) ≠ [])
    (hlast : (normAbs (splitPath root)).getLast? ≠ some ['x']) :
    resolveWorkspacePath root ("../x".data) = Except.error "Path escapes workspace" := by
  have hclean := normAbs_clean root
  have hcleanD : ∀ s ∈ (normAbs (splitPath root)).dropLast ++ [['x']], CleanSeg s := by
    intro s hs
    rcases List.mem_append.mp hs with h | h
    · exact hclean s ((List.dropLast_sublist _).subset h)
    · rw [List.mem_singleton] at h
      subst h
      exact ⟨by simp, by decide⟩
  have hres : pathResolve root ("../x".data) =
      joinAbs ((normAbs (splitPath root)).dropLast ++ [['x']]) := by
    rw [pathResolve_rel root ("../x".data) (by decide)]
    rfl
  have hlen : 0 < (normAbs (splitPath root)).length := List.length_pos.mpr hne
  have hkey : ¬ (normAbs (splitPath root) =
      (normAbs (splitPath root)).dropLast ++ [['x']]) := by
    intro hEq
    apply hlast
    rw [hEq, List.getLast?_concat]
  have hneq : joinAbs ((normAbs (splitPath root)).dropLast ++ [['x']]) ≠
      pathResolveOne root := by
    intro h
    rw [pathResolveOne, joinAbs, joinAbs] at h
    injection h with _ h2
    exact hkey (joinSegs_inj _ _ hcleanD hclean h2).symm
  have hnpre : (pathResolveOne root ++ ['/']).isPrefixOf
      (joinAbs ((normAbs (splitPath root)).dropLast ++ [['x']])) = false := by
    rw [Bool.eq_false_iff]
    intro hp
    rw [isPrefixOf_eq_true_iff] at hp
    rw [pathResolveOne, joinAbs, joinAbs] at hp
    rcases hp with ⟨t, ht⟩
    rw [List.cons_append, List.cons_append, List.cons.injEq] at ht
    have hp2 : (joinSegs (normAbs (splitPath root)) ++ ['/']) <+:
        joinSegs ((normAbs (splitPath root)).dropLast ++ [['x']]) := ⟨t, ht.2⟩
    have hsub := joinSegs_pre_of_pre _ _ hcleanD hclean hne hp2
    have hlene : (normAbs (splitPath root)).length =
        ((normAbs (splitPath root)).dropLast ++ [['x']]).length := by
      rw [List.length_append, List.length_dropLast, List.length_singleton]
      omega
    exact hkey (hsub.eq_of_length hlene)
  rw [resolveWorkspacePath, if_neg (by decide), hres, if_pos ⟨hneq, hnpre⟩]

theorem rel_ab_accepted (root : List Char)
    (hne : normAbs (splitPath root) ≠ []) :
    resolveWorkspacePath root ("a/b".data) =
      Except.ok (joinAbs (normAbs (splitPath root) ++ [['a'], ['b']])) := by
  have hres : pathResolve root ("a/b".data) =
      joinAbs (normAbs (splitPath root) ++ [['a'], ['b']]) := by
    rw [pathResolve_rel root ("a/b".data) (by decide)]
    have hfold : List.foldl normStep (normAbs (splitPath root)) (splitPath ("a/b".data)) =
        (normAbs (splitPath root) ++ [['a']]) ++ [['b']] := rfl
    rw [hfold, List.append_assoc]
    rfl
  have hpre : (pathResolveOne root ++ ['/']).isPrefixOf
      (joinAbs (normAbs (splitPath root) ++ [['a'], ['b']])) = true := by
    rw [isPrefixOf_eq_true_iff, pathResolveOne, joinAbs, joinAbs]
    rw [joinSegs_append _ _ hne (by simp)]
    refine ⟨joinSegs [['a'], ['b']], ?_⟩
    simp [List.append_assoc]
  have hcond : ¬ (joinAbs (normAbs (splitPath root) ++ [['a'], ['b']]) ≠
      pathResolveOne root ∧
      (pathResolveOne root ++ ['/']).isPrefixOf
        (joinAbs (normAbs (splitPath root) ++ [['a'], ['b']])) = false) := by
    intro hc
    rw [hpre] at hc
    exact absurd hc.2 (by simp)
  rw [resolveWorkspacePath, if_neg (by decide), hres, if_neg hcond]

theorem rel_dot_accepted (root : List Char) :
    resolveWorkspacePath root (".".data) = Except.ok (pathResolveOne root) := by
  have hres : pathResolve root (".".data) = pathResolveOne root := by
    rw [pathResolve_rel root (".".data) (by decide)]
    rfl
  rw [resolveWorkspacePath, if_neg (by decide), hres,
    if_neg (fun hc => hc.1 rfl)]

/-- C5 counterexample: the claim as frozen fails on the source for two
realistic workspace roots.  With root `/home/x`,
`path.resolve("/home/x", "../x")` is `/home/x` — exactly the root — so
the equals-root branch of `resolveWorkspacePath` ACCEPTS `"../x"`
instead of throwing.  With root `/`, `normalizedRoot` is
`root + path.sep = "//"` and `"/a/b".startsWith("//")` is false, so
`"a/b"` is REJECTED instead of accepted. -/
theorem C5_resolveWorkspacePath_counterexample :
    resolveWorkspacePath ("/home/x".data) ("../x".data) =
      Except.ok (pathResolveOne ("/home/x".data)) ∧
    resolveWorkspacePath ("/".data) ("a/b".data) =
      Except.error "Path escapes workspace" :=
  ⟨rfl, rfl⟩

/-- C5 (amended): for a workspace root that is absolute, has at least
one path segment (root is not `/`), and whose last segment is not `"x"`
(else `"../x"` resolves exactly back to the root and the equals-root
rule accepts it — see the counterexample), `resolveWorkspacePath`
rejects `"../x"`, rejects every absolute input — including absolute
paths that point inside the workspace — accepts `"a/b"`, and accepts
`"."` (resolving to the workspace root itself); unconditionally, every
accepted input resolves to the root or to a path strictly inside it
(the resolved root plus a separator is a string prefix). -/
theorem C5_resolveWorkspacePath (root : List Char)
    (_hroot : isAbsolutePath root = true)
    (hne : normAbs (splitPath root) ≠ [])
    (hlast : (normAbs (splitPath root)).getLast? ≠ some ['x']) :
    (resolveWorkspacePath root ("../x".data) =
      Except.error "Path escapes workspace") ∧
    (∀ rel, isAbsolutePath rel = true →
      resolveWorkspacePath root rel = Except.error "Absolute paths not allowed") ∧
    (resolveWorkspacePath root ("a/b".data) =
      Except.ok (joinAbs (normAbs (splitPath root) ++ [['a'], ['b']]))) ∧
    (resolveWorkspacePath root (".".data) = Except.ok (pathResolveOne root)) ∧
    (∀ rel r, resolveWorkspacePath root rel = Except.ok r →
      r = pathResolveOne root ∨ (pathResolveOne root ++ ['/']) <+: r) := by
  refine ⟨dotdot_escapes root hne hlast, ?_, rel_ab_accepted root hne,
    rel_dot_accepted root, ?_⟩
  · intro rel habs
    rw [resolveWorkspacePath, if_pos habs]
  · intro rel r hok
    rw [resolveWorkspacePath] at hok
    by_cases habs : isAbsolutePath rel = true
    · rw [if_pos habs] at hok
      exact absurd hok (by simp)
    · rw [if_neg habs] at hok
      by_cases hc : pathResolve root rel ≠ pathResolveOne root ∧
          (pathResolveOne root ++ ['/']).isPrefixOf (pathResolve root rel) = false
      · rw [if_pos hc] at hok
        exact absurd hok (by simp)
      · rw [if_neg hc] at hok
        have hr : r = pathResolve root rel := by
          injection hok with h
          exact h.symm
        rcases not_and_or.mp hc with h | h
        · left
          rw [hr]
          exact not_ne_iff.mp h
        · right
          rw [hr, ← isPrefixOf_eq_true_iff]
          cases hb : (pathResolveOne root ++ ['/']).isPrefixOf (pathResolve root rel)
          · exact absurd hb h
          · rfl

theorem C5_resolveWorkspacePath_witness :
    (resolveWorkspacePath ("/ws".data) ("../x".data) =
      Except.error "Path escapes workspace") ∧
    (resolveWorkspacePath ("/ws".data) ("/etc/passwd".data) =
      Except.error "Absolute paths not allowed") ∧
    (resolveWorkspacePath ("/ws".data) ("/ws/inside".data) =
      Except.error "Absolute paths not allowed") ∧
    (resolveWorkspacePath ("/ws".data) ("a/b".data) =
      Except.ok (joinAbs (normAbs (splitPath ("/ws".data)) ++ [['a'], ['b']]))) ∧
    (resolveWorkspacePath ("/ws".data) (".".data) =
      Except.ok (pathResolveOne ("/ws".data))) :=
  ⟨(C5_resolveWorkspacePath ("/ws".data) (by decide) (by decide) (by decide)).1,
   (C5_resolveWorkspacePath ("/ws".data) (by decide) (by decide) (by decide)).2.1
     ("/etc/passwd".data) (by decide),
   (C5_resolveWorkspacePath ("/ws".data) (by decide) (by decide) (by decide)).2.1
     ("/ws/inside".data) (by decide),
   (C5_resolveWorkspacePath ("/ws".data) (by decide) (by decide) (by decide)).2.2.1,
   (C5_resolveWorkspacePath ("/ws".data) (by decide) (by decide) (by decide)).2.2.2.1⟩

/-! ## Terminal runner (`commands/terminal.ts`, `terminalRun`)

The subprocess is modelled by the trace of events its handlers receive:
stdout/stderr data chunks, the firing of the `timeoutMs` timer, and the
`close`/`error` events.  `stepRun` is the body of the Promise executor
(lines 66–115): data handlers append capped output, the timer handler
sets `timedOut` (the timer is cleared once `finalize` ran, so it cannot
fire afterwards), and `finalize` resolves exactly once with the output
captured so far.  The promise only ever resolves — there is no reject
path — so a resolved `RunState.result` models the resolution value. -/

structure TerminalConfig where
  terminalEnabled : Bool
  readOnly : Bool
  terminalAllowlist : List String
  confirmWrites : Bool
  deriving DecidableEq, Repr

structure TerminalRunParams where
  command : String
  timeoutMs : Option Nat
  deriving DecidableEq, Repr

structure TerminalRunResult where
  exitCode : Option Int
  stdout : List Char
  stderr : List Char
  timedOut : Bool
  deriving DecidableEq, Repr

/-- `MAX_OUTPUT` from `terminal.ts`. -/
def MAX_OUTPUT : Nat := 100000

/-- The data-handler body: append the chunk, capped at `MAX_OUTPUT`. -/
def appendCapped (buf chunk : List Char) : List Char :=
  if buf.length < MAX_OUTPUT then buf ++ chunk.take (MAX_OUTPUT - buf.length)
  else buf

inductive ProcEvent where
  | dataOut (chunk : List Char) : ProcEvent
  | dataErr (chunk : List Char) : ProcEvent
  | timeout : ProcEvent
  | close (code : Option Int) : ProcEvent
  | errorEv : ProcEvent
  deriving DecidableEq, Repr

structure RunState where
  stdout : List Char := []
  stderr : List Char := []
  timedOut : Bool := false
  result : Option TerminalRunResult := none
  deriving DecidableEq, Repr

/-- One event-handler step of the `terminalRun` Promise executor. -/
def stepRun (s : RunState) (e : ProcEvent) : RunState :=
  match e with
  | ProcEvent.dataOut c => { s with stdout := appendCapped s.stdout c }
  | ProcEvent.dataErr c => { s with stderr := appendCapped s.stderr c }
  | ProcEvent.timeout =>
      if s.result.isSome then s else { s with timedOut := true }
  | ProcEvent.close code =>
      if s.result.isSome then s
      else { s with result := some ⟨code, s.stdout, s.stderr, s.timedOut⟩ }
  | ProcEvent.errorEv =>
      if s.result.isSome then s
      else { s with result := some ⟨none, s.stdout, s.stderr, s.timedOut⟩ }

def runTrace (events : List ProcEvent) : RunState :=
  events.foldl stepRun {}

/-- `params.timeoutMs ?? 60_000`. -/
def effectiveTimeoutMs (p : TerminalRunParams) : Nat := p.timeoutMs.getD 60000

/-- `terminalRun(params)`: the guard checks of lines 23–48 (disabled
terminal, read-only mode, allow-list, user confirmation) throw; once
they pass, the subprocess runs and the promise resolves with the state
reached on the event trace. -/
def terminalRun (cfg : TerminalConfig) (p : TerminalRunParams)
    (events : List ProcEvent) (userAllows : Bool) : Except String RunState :=
  if cfg.terminalEnabled = false then
    Except.error "Terminal execution is disabled. Enable openclaw.terminal.enabled to use this."
  else if cfg.readOnly then Except.error "Read-only mode is enabled"
  else if isCommandAllowed p.command cfg.terminalAllowlist = false then
    Except.error "Command not in allowlist"
  else if cfg.confirmWrites && !userAllows then
    Except.error "Command denied by user"
  else Except.ok (runTrace events)

def isDataEvent : ProcEvent → Bool
  | ProcEvent.dataOut _ => true
  | ProcEvent.dataErr _ => true
  | _ => false

/-- The stdout captured over a trace (starting from buffer `b`). -/
def foldOut (b : List Char) (events : List ProcEvent) : List Char :=
  events.foldl (fun acc e =>
    match e with
    | ProcEvent.dataOut c => appendCapped acc c
    | _ => acc) b

/-- The stderr captured over a trace (starting from buffer `b`). -/
def foldErr (b : List Char) (events : List ProcEvent) : List Char :=
  events.foldl (fun acc e =>
    match e with
    | ProcEvent.dataErr c => appendCapped acc c
    | _ => acc) b

theorem stepRun_settled (s : RunState) (e : ProcEvent) (r : TerminalRunResult)
    (h : s.result = some r) : (stepRun s e).result = some r := by
  cases e <;> simp [stepRun, h]

theorem runTrace_settled (events : List ProcEvent) : ∀ s : RunState,
    ∀ r, s.result = some r → (List.foldl stepRun s events).result = some r := by
  induction events with
  | nil => intro s r h; exact h
  | cons e events ih =>
    intro s r h
    rw [List.foldl_cons]
    exact ih _ r (stepRun_settled s e r h)

theorem runTrace_data (pre : List ProcEvent) : ∀ s : RunState,
    (∀ e ∈ pre, isDataEvent e = true) →
    List.foldl stepRun s pre =
      { s with stdout := foldOut s.stdout pre, stderr := foldErr s.stderr pre } := by
  induction pre with
  | nil => intro s _; rfl
  | cons e pre ih =>
    intro s hall
    have he := hall e (List.mem_cons_self _ _)
    rw [List.foldl_cons]
    cases e with
    | dataOut c =>
      rw [ih _ (fun x hx => hall x (List.mem_cons_of_mem _ hx))]
      rfl
    | dataErr c =>
      rw [ih _ (fun x hx => hall x (List.mem_cons_of_mem _ hx))]
      rfl
    | timeout => simp [isDataEvent] at he
    | close code => simp [isDataEvent] at he
    | errorEv => simp [isDataEvent] at he

/-- C8: when the subprocess exceeds its timeout (`timeoutMs`, default
60000ms) — the timer fires while only data events have happened, the
child is killed and eventually closes — `terminalRun` resolves (it does
not reject: the model's guard errors are the only `.error` outcomes,
and they are ruled out by the passing guards), exactly once, with
`timedOut = true`, the close code, and the output captured so far. -/
theorem C8_terminalRun_timeout (cfg : TerminalConfig) (p : TerminalRunParams)
    (pre rest : List ProcEvent) (code : Option Int) (userAllows : Bool)
    (hen : cfg.terminalEnabled = true) (hro : cfg.readOnly = false)
    (hallow : isCommandAllowed p.command cfg.terminalAllowlist = true)
    (hconfirm : (cfg.confirmWrites && !userAllows) = false)
    (hpre : ∀ e ∈ pre, isDataEvent e = true) :
    (p.timeoutMs = none → effectiveTimeoutMs p = 60000) ∧
    terminalRun cfg p (pre ++ ProcEvent.timeout :: ProcEvent.close code :: rest)
        userAllows =
      Except.ok (runTrace (pre ++ ProcEvent.timeout :: ProcEvent.close code :: rest)) ∧
    (runTrace (pre ++ ProcEvent.timeout :: ProcEvent.close code :: rest)).result =
      some ⟨code, foldOut [] pre, foldErr [] pre, true⟩ := by
  refine ⟨?_, ?_, ?_⟩
  · intro h
    rw [effectiveTimeoutMs, h]
    rfl
  · simp [terminalRun, hen, hro, hallow, hconfirm]
  · rw [runTrace, List.foldl_append, runTrace_data pre {} hpre]
    rw [List.foldl_cons, List.foldl_cons]
    exact runTrace_settled rest _ ⟨code, foldOut [] pre, foldErr [] pre, true⟩ rfl

theorem C8_terminalRun_timeout_witness :
    terminalRun ⟨true, false, ["echo"], false⟩ ⟨"echo hi", none⟩
        [ProcEvent.dataOut ("out".data), ProcEvent.timeout, ProcEvent.close none]
        false =
      Except.ok (runTrace [ProcEvent.dataOut ("out".data), ProcEvent.timeout,
        ProcEvent.close none]) ∧
    (runTrace [ProcEvent.dataOut ("out".data), ProcEvent.timeout,
        ProcEvent.close none]).result =
      some ⟨none, foldOut [] [ProcEvent.dataOut ("out".data)],
        foldErr [] [ProcEvent.dataOut ("out".data)], true⟩ ∧
    effectiveTimeoutMs ⟨"echo hi", none⟩ = 60000 :=
  ⟨(C8_terminalRun_timeout ⟨true, false, ["echo"], false⟩ ⟨"echo hi", none⟩
      [ProcEvent.dataOut ("out".data)] [] none false rfl rfl (by decide) rfl
      (by decide)).2.1,
   (C8_terminalRun_timeout ⟨true, false, ["echo"], false⟩ ⟨"echo hi", none⟩
      [ProcEvent.dataOut ("out".data)] [] none false rfl rfl (by decide) rfl
      (by decide)).2.2,
   (C8_terminalRun_timeout ⟨true, false, ["echo"], false⟩ ⟨"echo hi", none⟩
      [ProcEvent.dataOut ("out".data)] [] none false rfl rfl (by decide) rfl
      (by decide)).1 rfl⟩

/-! ## File editor (`commands/file.ts`, `fileEdit`, lines 79–132)

The document is modelled as its text (a list of characters).
`fullText.indexOf(oldText, searchStart)` is `findFromAt`; the
occurrence-collecting `while` loop is `editScan`, with fuel
`text.length + 1` (sufficient for every non-empty pattern, since
`searchStart` advances by at least one per found match);
`editReplace` splices `newText` over the collected non-overlapping
ranges.  The guard checks (read-only mode, confirmation) and the
editor-API plumbing are orthogonal to the claim and omitted. -/

/-- First index at which `pat` occurs in `text` (JS
`text.indexOf(pat)`; `none` for `-1`). -/
def findFrom : List Char → List Char → Option Nat
  | [], pat => if pat.isPrefixOf [] then some 0 else none
  | c :: t, pat =>
      if pat.isPrefixOf (c :: t) then some 0
      else (findFrom t pat).map (· + 1)

/-- JS `text.indexOf(pat, start)`. -/
def findFromAt (text pat : List Char) (start : Nat) : Option Nat :=
  (findFrom (text.drop start) pat).map (· + start)

/-- The source's occurrence scan: find from `searchStart`, record the
index, resume right after the match (`searchStart = idx +
oldText.length`). -/
def editScan : Nat → List Char → List Char → Nat → List Nat
  | 0, _, _, _ => []
  | fuel + 1, text, pat, start =>
      match findFromAt text pat start with
      | none => []
      | some i => i :: editScan fuel text pat (i + pat.length)

/-- All non-overlapping occurrences found by the source's scan. -/
def occurrences (text pat : List Char) : List Nat :=
  editScan (text.length + 1) text pat 0

/-- Replace each scanned occurrence of `pat` by `new`, left to right. -/
def editReplace : Nat → List Char → List Char → List Char → List Char
  | 0, text, _, _ => text
  | fuel + 1, text, pat, new =>
      match findFrom text pat with
      | none => text
      | some i =>
          text.take i ++ new ++ editReplace fuel (text.drop (i + pat.length)) pat new

/-- `fileEdit`: throw `oldText not found` when the scan finds no
occurrence (the document is untouched); otherwise apply the
replacements and report their number (`ranges.length`). -/
def fileEdit (doc oldText newText : List Char) : Except String (List Char × Nat) :=
  if occurrences doc oldText = [] then Except.error "oldText not found"
  else
    Except.ok (editReplace (doc.length + 1) doc oldText newText,
      (occurrences doc oldText).length)

/-- One iteration of the source's `while (true)` loop, as a transition
on `searchStart`: `none` means the loop exits (`idx === -1`), `some s`
means the loop continues with `searchStart = idx + oldText.length`. -/
def editLoopStep (text pat : List Char) (start : Nat) : Option Nat :=
  (findFromAt text pat start).map (· + pat.length)

/-- The loop state after `n` iterations from `searchStart = 0`
(`none` once the loop has exited). -/
def editLoopIters (text pat : List Char) : Nat → Option Nat
  | 0 => some 0
  | n + 1 =>
      match editLoopIters text pat n with
      | none => none
      | some s => editLoopStep text pat s

theorem findFrom_some_pre (text : List Char) : ∀ pat i, findFrom text pat = some i →
    pat <+: text.drop i := by
  induction text with
  | nil =>
    intro pat i h
    rw [findFrom] at h
    by_cases hp : pat.isPrefixOf ([] : List Char) = true
    · rw [if_pos hp] at h
      injection h with h2
      subst h2
      exact List.isPrefixOf_iff_prefix.mp hp
    · rw [if_neg hp] at h
      exact absurd h (by simp)
  | cons c t ih =>
    intro pat i h
    rw [findFrom] at h
    by_cases hp : pat.isPrefixOf (c :: t) = true
    · rw [if_pos hp] at h
      injection h with h2
      subst h2
      exact List.isPrefixOf_iff_prefix.mp hp
    · rw [if_neg hp] at h
      cases hf : findFrom t pat with
      | none => rw [hf] at h; exact absurd h (by simp)
      | some j =>
        rw [hf] at h
        simp only [Option.map_some'] at h
        injection h with h2
        subst h2
        rw [List.drop_succ_cons]
        exact ih pat j hf

theorem findFrom_none (text : List Char) : ∀ pat, findFrom text pat = none →
    ∀ i, ¬ pat <+: text.drop i := by
  induction text with
  | nil =>
    intro pat h i
    rw [findFrom] at h
    by_cases hp : pat.isPrefixOf ([] : List Char) = true
    · rw [if_pos hp] at h; exact absurd h (by simp)
    · rw [List.drop_nil]
      intro hpre
      exact hp (List.isPrefixOf_iff_prefix.mpr hpre)
  | cons c t ih =>
    intro pat h i
    rw [findFrom] at h
    by_cases hp : pat.isPrefixOf (c :: t) = true
    · rw [if_pos hp] at h; exact absurd h (by simp)
    · rw [if_neg hp] at h
      have hf : findFrom t pat = none := by
        cases hf : findFrom t pat with
        | none => rfl
        | some j => rw [hf] at h; exact absurd h (by simp)
      cases i with
      | zero =>
        rw [List.drop_zero]
        intro hpre
        exact hp (List.isPrefixOf_iff_prefix.mpr hpre)
      | succ j =>
        rw [List.drop_succ_cons]
        exact ih pat hf j

theorem infix_iff_exists_drop (pat text : List Char) :
    pat <:+: text ↔ ∃ i, pat <+: text.drop i := by
  constructor
  · rintro ⟨s, t, rfl⟩
    refine ⟨s.length, ?_⟩
    rw [List.append_assoc, List.drop_left]
    exact List.prefix_append pat t
  · rintro ⟨i, t, ht⟩
    refine ⟨text.take i, t, ?_⟩
    rw [List.append_assoc, ht, List.take_append_drop]

theorem occurrences_eq_nil_iff (doc old : List Char) :
    occurrences doc old = [] ↔ findFrom doc old = none := by
  cases h : findFrom doc old with
  | none =>
    have h0 : findFromAt doc old 0 = none := by simp [findFromAt, h]
    simp [occurrences, editScan, h0]
  | some i =>
    have h0 : findFromAt doc old 0 = some i := by simp [findFromAt, h]
    simp [occurrences, editScan, h0]

/-- C9 counterexample: with `oldText = ""` the source's occurrence loop
never terminates, so `fileEdit` neither throws nor returns.  JS
`"abc".indexOf("", 0)` is `0` and the loop then sets `searchStart = 0 +
"".length = 0`: the loop state repeats.  `editLoopIters` is the loop's
`searchStart` after `n` iterations (`none` would mean the loop exited):
after 100 iterations on document `"abc"` it is still `some 0`, and one
step from `0` is again `some 0` — a fixed point that never exits.  Yet
`""` does occur in `"abc"` (`findFrom` returns an index), so the claim,
which promises a return with a replacement count whenever `oldText`
occurs, fails at `doc = "abc"`, `oldText = ""`. -/
theorem C9_fileEdit_counterexample :
    editLoopIters ("abc".data) [] 100 = some 0 ∧
    editLoopStep ("abc".data) [] 0 = some 0 ∧
    findFrom ("abc".data) [] = some 0 := by
  refine ⟨by decide, by decide, by decide⟩

/-- C9 (amended): for every invocation with a NON-EMPTY `oldText`,
`fileEdit` throws `oldText not found` exactly when `oldText` occurs
nowhere in the document (and the document is unchanged — the error
path performs no edit); otherwise it returns the spliced document
together with a strictly positive `replacements` count equal to the
number of occurrences found by the left-to-right scan that resumes
after each match.  (With an empty `oldText` the source's scan loop
diverges, see the counterexample.) -/
theorem C9_fileEdit (doc old new : List Char) (_hold : old ≠ []) :
    (fileEdit doc old new = Except.error "oldText not found" ↔ ¬ old <:+: doc) ∧
    (∀ out cnt, fileEdit doc old new = Except.ok (out, cnt) →
      cnt = (occurrences doc old).length ∧ 0 < cnt ∧
      out = editReplace (doc.length + 1) doc old new) := by
  have hiff : occurrences doc old = [] ↔ ¬ old <:+: doc := by
    rw [occurrences_eq_nil_iff]
    constructor
    · intro hn hinf
      rcases (infix_iff_exists_drop old doc).mp hinf with ⟨i, hpre⟩
      exact findFrom_none doc old hn i hpre
    · intro hninf
      cases hf : findFrom doc old with
      | none => rfl
      | some i =>
        exact absurd ((infix_iff_exists_drop old doc).mpr
          ⟨i, findFrom_some_pre doc old i hf⟩) hninf
  constructor
  · constructor
    · intro herr
      by_cases hocc : occurrences doc old = []
      · exact hiff.mp hocc
      · rw [fileEdit, if_neg hocc] at herr
        exact absurd herr (by simp)
    · intro hninf
      rw [fileEdit, if_pos (hiff.mpr hninf)]
  · intro out cnt hok
    by_cases hocc : occurrences doc old = []
    · rw [fileEdit, if_pos hocc] at hok
      exact absurd hok (by simp)
    · rw [fileEdit, if_neg hocc] at hok
      injection hok with h2
      have hcnt : cnt = (occurrences doc old).length := (congrArg Prod.snd h2).symm
      have hout : out = editReplace (doc.length + 1) doc old new :=
        (congrArg Prod.fst h2).symm
      refine ⟨hcnt, ?_, hout⟩
      rw [hcnt]
      exact List.length_pos.mpr hocc

theorem C9_fileEdit_witness :
    ("zz".data ≠ ([] : List Char)) ∧
    (fileEdit ("abab".data) ("zz".data) ("c".data) =
        Except.error "oldText not found" ↔ ¬ ("zz".data <:+: "abab".data)) :=
  ⟨by decide, (C9_fileEdit ("abab".data) ("zz".data) ("c".data) (by decide)).1⟩
